import Mathlib

/-!
# Verification of the bounded lock-free MPMC queue (`src/mpmc_queue.cpp`)

This file gives a shallow embedding of the Vyukov-style bounded
multi-producer multi-consumer queue `MPMCQueue<T>` from the repository and
proves the specified properties for sequential (single-threaded) executions.

Modelling decisions, matching the source:

* The element type `T` is instantiated to `Nat` (the repository always
  instantiates `MPMCQueue<int>`).
* `size_t` positions and sequence numbers are modelled as `Nat`.  The spec
  states the counters "never wrap logically"; the source computes
  `dif = (intptr_t)seq - (intptr_t)pos` as a signed difference, which we model
  as subtraction in `Int` after casting from `Nat`.
* The `std::vector<Cell>` buffer is modelled by two functions
  `buffer_seq, buffer_data : Nat → Nat` (only indices `< buffer_size` are ever
  accessed, since indices are always masked with `buffer_mask`).
* Single-threaded execution means the `compare_exchange_weak` on a position
  counter always succeeds when reached: the counter was just loaded and no
  other thread can have changed it.  (A spurious weak-CAS failure merely
  repeats the loop in an identical state, so it is not modelled.)
* Consequently each operation's retry loop runs at most one iteration, except
  for the `dif > 0` branch, which reloads the position counter: sequentially
  the reloaded value equals the old one and the loop spins forever.  We model
  this divergence as `Option.none`; the theorems prove `none` is never
  produced from a reachable state.
* The constructor's `assert` is modelled by `MPMCQueue.construct` returning
  `Option.none` when the asserted condition fails.
-/

namespace MPMC

/-- Pointwise update of a buffer modelled as a function: `upd f i v` is the
buffer `f` with index `i` overwritten by `v`. -/
def upd (f : Nat → Nat) (i v : Nat) : Nat → Nat :=
  fun j => if j = i then v else f j

/-- The state of `MPMCQueue<int>`: the per-cell sequence numbers and data of
`buffer_`, the index mask `buffer_mask_`, and the two position counters
`enqueue_pos_` and `dequeue_pos_`.  `buffer_size` records the length of
`buffer_` (in the source it is implicit in `buffer_.size()`). -/
structure MPMCQueue where
  buffer_size : Nat
  buffer_seq : Nat → Nat
  buffer_data : Nat → Nat
  buffer_mask : Nat
  enqueue_pos : Nat
  dequeue_pos : Nat

/-- The constructor body after the assertion: `buffer_[i].sequence = i` for
every cell (data is value-initialised to `0` by `std::vector`),
`buffer_mask_ = buffer_size - 1`, both position counters `0`. -/
def MPMCQueue.init (buffer_size : Nat) : MPMCQueue :=
  { buffer_size := buffer_size
    buffer_seq := fun i => i
    buffer_data := fun _ => 0
    buffer_mask := buffer_size - 1
    enqueue_pos := 0
    dequeue_pos := 0 }

/-- The constructor `MPMCQueue::MPMCQueue(size_t buffer_size)` including its
`assert((buffer_size >= 2) && ((buffer_size & (buffer_size - 1)) == 0))`:
a failed assertion aborts, modelled as `none`. -/
def MPMCQueue.construct (buffer_size : Nat) : Option MPMCQueue :=
  if 2 ≤ buffer_size ∧ buffer_size &&& (buffer_size - 1) = 0 then
    some (MPMCQueue.init buffer_size)
  else
    none

/-- Sequential semantics of `bool MPMCQueue::enqueue(const T& data)`.
`pos` is the loaded `enqueue_pos_`, the cell is `buffer_[pos & buffer_mask_]`,
and `dif = (intptr_t)seq - (intptr_t)pos`.

* `dif == 0`: the CAS `enqueue_pos_.compare_exchange_weak(pos, pos + 1)`
  succeeds (no other thread), the cell's data is written, its sequence is set
  to `pos + 1`, and the call returns `true`.
* `dif < 0`: the queue is full, return `false` with no state change.
* `dif > 0`: the loop reloads `pos`, which sequentially is unchanged, and
  spins forever: modelled as `none`. -/
def MPMCQueue.enqueue (q : MPMCQueue) (data : Nat) : Option (Bool × MPMCQueue) :=
  let pos := q.enqueue_pos
  let seq := q.buffer_seq (pos &&& q.buffer_mask)
  let dif : Int := (seq : Int) - (pos : Int)
  if dif = 0 then
    some (true,
      { q with
        buffer_data := upd q.buffer_data (pos &&& q.buffer_mask) data
        buffer_seq := upd q.buffer_seq (pos &&& q.buffer_mask) (pos + 1)
        enqueue_pos := pos + 1 })
  else if dif < 0 then
    some (false, q)
  else
    none

/-- Sequential semantics of `bool MPMCQueue::dequeue(T& data)`.  The
by-reference output parameter is modelled by passing its prior contents in
and returning its (possibly updated) contents: the result is
`(returned bool, data after the call, queue after the call)`.

* `dif = (intptr_t)seq - (intptr_t)(pos + 1) == 0`: the CAS on `dequeue_pos_`
  succeeds, the cell's data is read out into `data`, the cell's sequence is
  set to `pos + buffer_mask_ + 1`, and the call returns `true`.
* `dif < 0`: the queue is empty, return `false`; `data` is not written.
* `dif > 0`: sequentially an infinite spin, modelled as `none`. -/
def MPMCQueue.dequeue (q : MPMCQueue) (data : Nat) : Option (Bool × Nat × MPMCQueue) :=
  let pos := q.dequeue_pos
  let seq := q.buffer_seq (pos &&& q.buffer_mask)
  let dif : Int := (seq : Int) - ((pos : Int) + 1)
  if dif = 0 then
    some (true, q.buffer_data (pos &&& q.buffer_mask),
      { q with
        buffer_seq := upd q.buffer_seq (pos &&& q.buffer_mask) (pos + q.buffer_mask + 1)
        dequeue_pos := pos + 1 })
  else if dif < 0 then
    some (false, data, q)
  else
    none

/-- The successor state of a successful `enqueue` (with the cell index
written as `enqueue_pos % buffer_size`, which equals
`enqueue_pos &&& buffer_mask` for a power-of-two buffer). -/
def MPMCQueue.enqSucc (q : MPMCQueue) (v : Nat) : MPMCQueue :=
  { q with
    buffer_data := upd q.buffer_data (q.enqueue_pos % q.buffer_size) v
    buffer_seq := upd q.buffer_seq (q.enqueue_pos % q.buffer_size) (q.enqueue_pos + 1)
    enqueue_pos := q.enqueue_pos + 1 }

/-- The successor state of a successful `dequeue`. -/
def MPMCQueue.deqSucc (q : MPMCQueue) : MPMCQueue :=
  { q with
    buffer_seq := upd q.buffer_seq (q.dequeue_pos % q.buffer_size)
      (q.dequeue_pos + q.buffer_mask + 1)
    dequeue_pos := q.dequeue_pos + 1 }

/-- A single queue call issued by a sequential client. -/
inductive Op where
  | enq : Nat → Op
  | deq : Op

/-- The state transition of one call (discarding return values); `none` if the
call diverges. -/
def MPMCQueue.step (q : MPMCQueue) : Op → Option MPMCQueue
  | Op.enq v => (q.enqueue v).map (fun r => r.2)
  | Op.deq => (q.dequeue 0).map (fun r => r.2.2)

/-- Running a list of calls from a state. -/
def MPMCQueue.runFrom : MPMCQueue → List Op → Option MPMCQueue
  | q, [] => some q
  | q, op :: ops =>
    match q.step op with
    | none => none
    | some q' => q'.runFrom ops

/-- A state is reachable if some sequence of calls produces it from a freshly
constructed queue. -/
def Reachable (q : MPMCQueue) : Prop :=
  ∃ n q0 ops, MPMCQueue.construct n = some q0 ∧ q0.runFrom ops = some q

/-- The visible result of one call: the returned `bool` of `enqueue`, or the
returned `bool` of `dequeue` together with the contents of its output
parameter after the call. -/
inductive OpResult where
  | enqR : Bool → OpResult
  | deqR : Bool → Nat → OpResult
deriving DecidableEq

/-- The visible results of a sequence of calls (with each `dequeue` output
variable initialised to `0`); `none` if some call diverges. -/
def MPMCQueue.trace : MPMCQueue → List Op → Option (List OpResult)
  | _, [] => some []
  | q, Op.enq v :: ops =>
    match q.enqueue v with
    | none => none
    | some r =>
      match r.2.trace ops with
      | none => none
      | some t => some (OpResult.enqR r.1 :: t)
  | q, Op.deq :: ops =>
    match q.dequeue 0 with
    | none => none
    | some r =>
      match r.2.2.trace ops with
      | none => none
      | some t => some (OpResult.deqR r.1 r.2.1 :: t)

/-- Modelled from the spec: the abstract bounded FIFO enqueue — "attempts to
insert `value`; returns `true` ... on success, `false` ... if the queue was
observed full", with at most `cap` resident values. -/
def absEnqueue (cap : Nat) (l : List Nat) (v : Nat) : Bool × List Nat :=
  if l.length < cap then (true, l ++ [v]) else (false, l)

/-- Modelled from the spec: the abstract FIFO dequeue — "attempts to remove
the oldest not-yet-removed value; returns it on success, or an empty result
if the queue was observed empty" (the output variable keeps its prior
contents `dflt` on the empty result). -/
def absDequeue (l : List Nat) (dflt : Nat) : Bool × Nat × List Nat :=
  match l with
  | [] => (false, dflt, [])
  | x :: xs => (true, x, xs)

/-- Modelled from the spec: the visible results of running a sequence of calls
against the abstract bounded FIFO of capacity `cap`. -/
def absTrace : Nat → List Nat → List Op → List OpResult
  | _, _, [] => []
  | cap, l, Op.enq v :: ops =>
    OpResult.enqR (absEnqueue cap l v).1 :: absTrace cap (absEnqueue cap l v).2 ops
  | cap, l, Op.deq :: ops =>
    OpResult.deqR (absDequeue l 0).1 (absDequeue l 0).2.1 ::
      absTrace cap (absDequeue l 0).2.2 ops

/-- The abstraction function: the list of resident values, oldest first.
Position `p` with `dequeue_pos ≤ p < enqueue_pos` holds the value stored in
cell `p % buffer_size`. -/
def absList (q : MPMCQueue) : List Nat :=
  (List.range (q.enqueue_pos - q.dequeue_pos)).map
    (fun j => q.buffer_data ((q.dequeue_pos + j) % q.buffer_size))

/-- The sequential state invariant of the queue:

* the buffer size is a power of two `≥ 2` and the mask is `buffer_size - 1`;
* `dequeue_pos ≤ enqueue_pos ≤ dequeue_pos + buffer_size`;
* a cell holding a resident position `p` (i.e. `dequeue_pos ≤ p <
  enqueue_pos`) has sequence `p + 1` (read-ready for position `p`);
* any other cell `i` has sequence equal to the unique position `p` in
  `[enqueue_pos, enqueue_pos + buffer_size)` with `p % buffer_size = i`
  (write-ready for the next position that maps to it). -/
structure Inv (q : MPMCQueue) : Prop where
  pow : ∃ k, 1 ≤ k ∧ q.buffer_size = 2 ^ k
  mask_eq : q.buffer_mask = q.buffer_size - 1
  le_enq : q.dequeue_pos ≤ q.enqueue_pos
  le_cap : q.enqueue_pos ≤ q.dequeue_pos + q.buffer_size
  resident : ∀ p, q.dequeue_pos ≤ p → p < q.enqueue_pos →
    q.buffer_seq (p % q.buffer_size) = p + 1
  freeSlot : ∀ i, i < q.buffer_size →
    (∀ p, q.dequeue_pos ≤ p → p < q.enqueue_pos → p % q.buffer_size ≠ i) →
    ∃ p, q.enqueue_pos ≤ p ∧ p < q.enqueue_pos + q.buffer_size ∧
      p % q.buffer_size = i ∧ q.buffer_seq i = p

/-! ## Arithmetic helper lemmas -/

/-- Two numbers less than `cap` apart with equal residues are equal. -/
theorem mod_eq_unique {cap a b : Nat} (hm : a % cap = b % cap)
    (hab : a ≤ b) (hlt : b < a + cap) : a = b := by
  have hd : cap ∣ b - a := (Nat.modEq_iff_dvd' hab).mp hm
  rcases Nat.eq_zero_or_pos (b - a) with h0 | hpos
  · omega
  · have := Nat.le_of_dvd hpos hd
    omega

/-- Two distinct numbers less than `cap` apart have distinct residues. -/
theorem mod_ne_of_lt {cap a b : Nat} (h : a < b) (hlt : b < a + cap) :
    a % cap ≠ b % cap := by
  intro hm
  have := mod_eq_unique hm (Nat.le_of_lt h) hlt
  omega

/-- Bit identity `(2*m) &&& (2*m' + 1) = 2 * (m &&& m')`. -/
theorem two_mul_and_two_mul_add_one (m m' : Nat) :
    (2 * m) &&& (2 * m' + 1) = 2 * (m &&& m') := by
  have := Nat.land_bit false m true m'
  simpa [Nat.bit_false, Nat.bit_true, Nat.bit] using this

/-- Bit identity `(2*m + 1) &&& (2*m') = 2 * (m &&& m')`. -/
theorem two_mul_add_one_and_two_mul (m m' : Nat) :
    (2 * m + 1) &&& (2 * m') = 2 * (m &&& m') := by
  have := Nat.land_bit true m false m'
  simpa [Nat.bit_false, Nat.bit_true, Nat.bit] using this

/-- A positive number whose bitwise AND with its predecessor vanishes is a
power of two: the meaning of the constructor's assertion. -/
theorem pow2_of_and_pred : ∀ n, 0 < n → n &&& (n - 1) = 0 → ∃ k, n = 2 ^ k := by
  intro n
  induction n using Nat.strong_induction_on with
  | _ n ih =>
    intro hpos hand
    rcases Nat.even_or_odd n with ⟨m, hm⟩ | ⟨m, hm⟩
    · -- n = 2 * m with m ≥ 1
      have hm2 : n = 2 * m := by omega
      have hmpos : 0 < m := by omega
      have hsub : n - 1 = 2 * (m - 1) + 1 := by omega
      have : 2 * (m &&& (m - 1)) = 0 := by
        rw [← two_mul_and_two_mul_add_one, ← hsub, ← hm2, hand]
      have hand' : m &&& (m - 1) = 0 := by omega
      obtain ⟨k, hk⟩ := ih m (by omega) hmpos hand'
      exact ⟨k + 1, by rw [hm2, hk, Nat.pow_succ, Nat.mul_comm]⟩
    · -- n = 2 * m + 1: the AND with n - 1 = 2 * m is 2 * m, so m = 0, n = 1
      have hm2 : n = 2 * m + 1 := hm
      have hsub : n - 1 = 2 * m := by omega
      have : 2 * (m &&& m) = 0 := by
        have h2 := two_mul_add_one_and_two_mul m m
        rw [← hm2, ← hsub] at h2
        omega
      have hm0 : m = 0 := by
        have := Nat.and_self m
        omega
      exact ⟨0, by omega⟩

/-! ## Field computation lemmas -/

@[simp] theorem upd_self (f : Nat → Nat) (i v : Nat) : upd f i v i = v := by
  simp [upd]

theorem upd_ne (f : Nat → Nat) (i v j : Nat) (h : j ≠ i) : upd f i v j = f j := by
  simp [upd, h]

@[simp] theorem enqSucc_buffer_size (q : MPMCQueue) (v : Nat) :
    (q.enqSucc v).buffer_size = q.buffer_size := rfl

@[simp] theorem enqSucc_buffer_mask (q : MPMCQueue) (v : Nat) :
    (q.enqSucc v).buffer_mask = q.buffer_mask := rfl

@[simp] theorem enqSucc_enqueue_pos (q : MPMCQueue) (v : Nat) :
    (q.enqSucc v).enqueue_pos = q.enqueue_pos + 1 := rfl

@[simp] theorem enqSucc_dequeue_pos (q : MPMCQueue) (v : Nat) :
    (q.enqSucc v).dequeue_pos = q.dequeue_pos := rfl

@[simp] theorem enqSucc_buffer_seq (q : MPMCQueue) (v : Nat) :
    (q.enqSucc v).buffer_seq =
      upd q.buffer_seq (q.enqueue_pos % q.buffer_size) (q.enqueue_pos + 1) := rfl

@[simp] theorem enqSucc_buffer_data (q : MPMCQueue) (v : Nat) :
    (q.enqSucc v).buffer_data =
      upd q.buffer_data (q.enqueue_pos % q.buffer_size) v := rfl

@[simp] theorem deqSucc_buffer_size (q : MPMCQueue) :
    q.deqSucc.buffer_size = q.buffer_size := rfl

@[simp] theorem deqSucc_buffer_mask (q : MPMCQueue) :
    q.deqSucc.buffer_mask = q.buffer_mask := rfl

@[simp] theorem deqSucc_enqueue_pos (q : MPMCQueue) :
    q.deqSucc.enqueue_pos = q.enqueue_pos := rfl

@[simp] theorem deqSucc_dequeue_pos (q : MPMCQueue) :
    q.deqSucc.dequeue_pos = q.dequeue_pos + 1 := rfl

@[simp] theorem deqSucc_buffer_seq (q : MPMCQueue) :
    q.deqSucc.buffer_seq =
      upd q.buffer_seq (q.dequeue_pos % q.buffer_size)
        (q.dequeue_pos + q.buffer_mask + 1) := rfl

@[simp] theorem deqSucc_buffer_data (q : MPMCQueue) :
    q.deqSucc.buffer_data = q.buffer_data := rfl

/-! ## Basic consequences of the invariant -/

theorem Inv.size_pos {q : MPMCQueue} (h : Inv q) : 0 < q.buffer_size := by
  obtain ⟨k, _, hk⟩ := h.pow
  rw [hk]
  exact Nat.pos_pow_of_pos k (by omega)

theorem Inv.two_le {q : MPMCQueue} (h : Inv q) : 2 ≤ q.buffer_size := by
  obtain ⟨k, hk1, hk⟩ := h.pow
  rw [hk]
  calc 2 = 2 ^ 1 := rfl
    _ ≤ 2 ^ k := Nat.pow_le_pow_right (by omega) hk1

/-- For a power-of-two buffer, masking with `buffer_mask` is reduction modulo
`buffer_size`. -/
theorem Inv.idx_eq {q : MPMCQueue} (h : Inv q) (pos : Nat) :
    pos &&& q.buffer_mask = pos % q.buffer_size := by
  obtain ⟨k, _, hk⟩ := h.pow
  rw [h.mask_eq, hk]
  exact Nat.and_pow_two_sub_one_eq_mod pos k

/-! ## Branch characterisation of the two operations -/

/-- Unfolding of `enqueue` with the signed `dif` comparisons rewritten as `Nat` comparisons. -/
theorem enqueue_eq (q : MPMCQueue) (v : Nat) :
    q.enqueue v =
      (if q.buffer_seq (q.enqueue_pos &&& q.buffer_mask) = q.enqueue_pos then
        some (true,
          { q with
            buffer_data := upd q.buffer_data (q.enqueue_pos &&& q.buffer_mask) v
            buffer_seq :=
              upd q.buffer_seq (q.enqueue_pos &&& q.buffer_mask) (q.enqueue_pos + 1)
            enqueue_pos := q.enqueue_pos + 1 })
      else if q.buffer_seq (q.enqueue_pos &&& q.buffer_mask) < q.enqueue_pos then
        some (false, q)
      else none) := by
  have h1 : ((q.buffer_seq (q.enqueue_pos &&& q.buffer_mask) : Int) -
      (q.enqueue_pos : Int) = 0) ↔
      q.buffer_seq (q.enqueue_pos &&& q.buffer_mask) = q.enqueue_pos := by omega
  have h2 : ((q.buffer_seq (q.enqueue_pos &&& q.buffer_mask) : Int) -
      (q.enqueue_pos : Int) < 0) ↔
      q.buffer_seq (q.enqueue_pos &&& q.buffer_mask) < q.enqueue_pos := by omega
  simp only [MPMCQueue.enqueue, h1, h2]

/-- Unfolding of `dequeue` with the signed `dif` comparisons rewritten as `Nat` comparisons. -/
theorem dequeue_eq (q : MPMCQueue) (d0 : Nat) :
    q.dequeue d0 =
      (if q.buffer_seq (q.dequeue_pos &&& q.buffer_mask) = q.dequeue_pos + 1 then
        some (true, q.buffer_data (q.dequeue_pos &&& q.buffer_mask),
          { q with
            buffer_seq := upd q.buffer_seq (q.dequeue_pos &&& q.buffer_mask)
              (q.dequeue_pos + q.buffer_mask + 1)
            dequeue_pos := q.dequeue_pos + 1 })
      else if q.buffer_seq (q.dequeue_pos &&& q.buffer_mask) < q.dequeue_pos + 1 then
        some (false, d0, q)
      else none) := by
  have h1 : ((q.buffer_seq (q.dequeue_pos &&& q.buffer_mask) : Int) -
      ((q.dequeue_pos : Int) + 1) = 0) ↔
      q.buffer_seq (q.dequeue_pos &&& q.buffer_mask) = q.dequeue_pos + 1 := by omega
  have h2 : ((q.buffer_seq (q.dequeue_pos &&& q.buffer_mask) : Int) -
      ((q.dequeue_pos : Int) + 1) < 0) ↔
      q.buffer_seq (q.dequeue_pos &&& q.buffer_mask) < q.dequeue_pos + 1 := by omega
  simp only [MPMCQueue.dequeue, h1, h2]

/-- In a non-full invariant state no resident position maps to the cell of the
next enqueue position. -/
theorem not_resident_at_enq {q : MPMCQueue} (_h : Inv q)
    (hfull : q.enqueue_pos < q.dequeue_pos + q.buffer_size) :
    ∀ p, q.dequeue_pos ≤ p → p < q.enqueue_pos →
      p % q.buffer_size ≠ q.enqueue_pos % q.buffer_size :=
  fun _ hdp hpe => mod_ne_of_lt hpe (by omega)

/-- In a non-full invariant state the cell of the next enqueue position is
write-ready: its sequence equals `enqueue_pos`. -/
theorem seq_at_enq {q : MPMCQueue} (h : Inv q)
    (hfull : q.enqueue_pos < q.dequeue_pos + q.buffer_size) :
    q.buffer_seq (q.enqueue_pos % q.buffer_size) = q.enqueue_pos := by
  obtain ⟨p, hep, hlt, hmod, hseq⟩ :=
    h.freeSlot (q.enqueue_pos % q.buffer_size)
      (Nat.mod_lt _ h.size_pos) (not_resident_at_enq h hfull)
  have hpe : q.enqueue_pos = p := mod_eq_unique hmod.symm hep hlt
  rw [hseq, ← hpe]

/-- In a full invariant state the cell of the next enqueue position still
holds the oldest resident value: its sequence equals `dequeue_pos + 1`. -/
theorem seq_at_enq_full {q : MPMCQueue} (h : Inv q)
    (hfull : q.enqueue_pos = q.dequeue_pos + q.buffer_size) :
    q.buffer_seq (q.enqueue_pos % q.buffer_size) = q.dequeue_pos + 1 := by
  have hmod : q.enqueue_pos % q.buffer_size = q.dequeue_pos % q.buffer_size := by
    rw [hfull, Nat.add_mod_right]
  rw [hmod]
  exact h.resident q.dequeue_pos le_rfl (by have := h.two_le; omega)

/-- In a non-empty invariant state the cell of the next dequeue position is
read-ready: its sequence equals `dequeue_pos + 1`. -/
theorem seq_at_deq {q : MPMCQueue} (h : Inv q)
    (hne : q.dequeue_pos < q.enqueue_pos) :
    q.buffer_seq (q.dequeue_pos % q.buffer_size) = q.dequeue_pos + 1 :=
  h.resident q.dequeue_pos le_rfl hne

/-- In an empty invariant state the cell of the next dequeue position is
write-ready for it: its sequence equals `dequeue_pos`. -/
theorem seq_at_deq_empty {q : MPMCQueue} (h : Inv q)
    (he : q.dequeue_pos = q.enqueue_pos) :
    q.buffer_seq (q.dequeue_pos % q.buffer_size) = q.dequeue_pos := by
  obtain ⟨p, hep, hlt, hmod, hseq⟩ :=
    h.freeSlot (q.dequeue_pos % q.buffer_size)
      (Nat.mod_lt _ h.size_pos) (fun p hdp hpe => by omega)
  have hpe : q.dequeue_pos = p := mod_eq_unique hmod.symm (by omega) (by omega)
  rw [hseq, ← hpe]

/-- A non-full `enqueue` succeeds and produces `enqSucc`. -/
theorem enqueue_eq_of_not_full {q : MPMCQueue} (h : Inv q) (v : Nat)
    (hfull : q.enqueue_pos < q.dequeue_pos + q.buffer_size) :
    q.enqueue v = some (true, q.enqSucc v) := by
  rw [enqueue_eq, h.idx_eq, if_pos (seq_at_enq h hfull)]
  rfl

/-- A full `enqueue` returns `false` and leaves the state unchanged. -/
theorem enqueue_eq_of_full {q : MPMCQueue} (h : Inv q) (v : Nat)
    (hfull : q.enqueue_pos = q.dequeue_pos + q.buffer_size) :
    q.enqueue v = some (false, q) := by
  have hseq := seq_at_enq_full h hfull
  have h2 := h.two_le
  rw [enqueue_eq, h.idx_eq, if_neg (by omega), if_pos (by omega)]

/-- A non-empty `dequeue` succeeds, returns the cell's data, and produces
`deqSucc`. -/
theorem dequeue_eq_of_nonempty {q : MPMCQueue} (h : Inv q) (d0 : Nat)
    (hne : q.dequeue_pos < q.enqueue_pos) :
    q.dequeue d0 =
      some (true, q.buffer_data (q.dequeue_pos % q.buffer_size), q.deqSucc) := by
  rw [dequeue_eq, h.idx_eq, if_pos (seq_at_deq h hne)]
  rfl

/-- An empty `dequeue` returns `false` and leaves both the state and the
output parameter unchanged. -/
theorem dequeue_eq_of_empty {q : MPMCQueue} (h : Inv q) (d0 : Nat)
    (he : q.dequeue_pos = q.enqueue_pos) :
    q.dequeue d0 = some (false, d0, q) := by
  have hseq := seq_at_deq_empty h he
  rw [dequeue_eq, h.idx_eq, if_neg (by omega), if_pos (by omega)]

/-! ## Preservation of the invariant -/

theorem Inv.enqSucc_inv {q : MPMCQueue} (h : Inv q) (v : Nat)
    (hfull : q.enqueue_pos < q.dequeue_pos + q.buffer_size) :
    Inv (q.enqSucc v) := by
  have hle := h.le_enq
  constructor
  · simpa using h.pow
  · simpa using h.mask_eq
  · simp
    omega
  · simp
    omega
  · intro p hdp hpe
    simp only [enqSucc_buffer_seq, enqSucc_buffer_size, enqSucc_dequeue_pos,
      enqSucc_enqueue_pos] at *
    rcases Nat.lt_or_ge p q.enqueue_pos with hlt | hge
    · rw [upd_ne _ _ _ _ (mod_ne_of_lt hlt (by omega))]
      exact h.resident p hdp hlt
    · have hpe' : p = q.enqueue_pos := by omega
      subst hpe'
      rw [upd_self]
  · intro i hi hni
    simp only [enqSucc_buffer_seq, enqSucc_buffer_size, enqSucc_dequeue_pos,
      enqSucc_enqueue_pos] at *
    have hie : q.enqueue_pos % q.buffer_size ≠ i :=
      hni q.enqueue_pos (by omega) (by omega)
    obtain ⟨p, hep, hlt, hmod, hseq⟩ :=
      h.freeSlot i hi (fun p hdp hpe => hni p hdp (by omega))
    have hpne : p ≠ q.enqueue_pos := by
      intro hp
      exact hie (by rw [← hp, hmod])
    refine ⟨p, by omega, by omega, hmod, ?_⟩
    rw [upd_ne _ _ _ _ (fun heq => hie heq.symm)]
    exact hseq

theorem Inv.deqSucc_inv {q : MPMCQueue} (h : Inv q)
    (hne : q.dequeue_pos < q.enqueue_pos) : Inv q.deqSucc := by
  have hcap := h.le_cap
  have h2 := h.two_le
  have hmask := h.mask_eq
  constructor
  · simpa using h.pow
  · simpa using h.mask_eq
  · simp
    omega
  · simp
    omega
  · intro p hdp hpe
    simp only [deqSucc_buffer_seq, deqSucc_buffer_size, deqSucc_dequeue_pos,
      deqSucc_enqueue_pos] at *
    rw [upd_ne _ _ _ _ (mod_ne_of_lt (show q.dequeue_pos < p by omega)
      (by omega)).symm]
    exact h.resident p (by omega) hpe
  · intro i hi hni
    simp only [deqSucc_buffer_seq, deqSucc_buffer_size, deqSucc_dequeue_pos,
      deqSucc_enqueue_pos] at *
    by_cases hid : i = q.dequeue_pos % q.buffer_size
    · refine ⟨q.dequeue_pos + q.buffer_size, by omega, by omega, ?_, ?_⟩
      · rw [Nat.add_mod_right]
        exact hid.symm
      · rw [hid, upd_self]
        omega
    · obtain ⟨p, hep, hlt, hmod, hseq⟩ :=
        h.freeSlot i hi (fun p hdp hpe => by
          rcases Nat.eq_or_lt_of_le hdp with hdp' | hdp'
          · rw [← hdp']
            exact fun heq => hid heq.symm
          · exact hni p (by omega) hpe)
      refine ⟨p, hep, hlt, hmod, ?_⟩
      rw [upd_ne _ _ _ _ hid]
      exact hseq

/-! ## The abstraction function -/

theorem absList_length (q : MPMCQueue) :
    (absList q).length = q.enqueue_pos - q.dequeue_pos := by
  simp [absList]

/-- A successful `enqueue` appends its value to the abstract list. -/
theorem absList_enqSucc {q : MPMCQueue} (h : Inv q) (v : Nat)
    (hfull : q.enqueue_pos < q.dequeue_pos + q.buffer_size) :
    absList (q.enqSucc v) = absList q ++ [v] := by
  have hle := h.le_enq
  unfold absList
  simp only [enqSucc_buffer_data, enqSucc_buffer_size, enqSucc_dequeue_pos,
    enqSucc_enqueue_pos]
  have hd : q.enqueue_pos + 1 - q.dequeue_pos =
      (q.enqueue_pos - q.dequeue_pos) + 1 := by omega
  rw [hd, List.range_succ, List.map_append]
  congr 1
  · apply List.map_congr_left
    intro j hj
    rw [List.mem_range] at hj
    exact upd_ne _ _ _ _ (mod_ne_of_lt (by omega) (by omega))
  · simp only [List.map_cons, List.map_nil]
    have he : q.dequeue_pos + (q.enqueue_pos - q.dequeue_pos) = q.enqueue_pos := by
      omega
    rw [he, upd_self]

/-- A successful `dequeue` removes the head of the abstract list, which is the
data of the cell at `dequeue_pos % buffer_size`. -/
theorem absList_cons {q : MPMCQueue} (_h : Inv q)
    (hne : q.dequeue_pos < q.enqueue_pos) :
    absList q = q.buffer_data (q.dequeue_pos % q.buffer_size) :: absList q.deqSucc := by
  unfold absList
  simp only [deqSucc_buffer_data, deqSucc_buffer_size, deqSucc_dequeue_pos,
    deqSucc_enqueue_pos]
  have hk : ∀ a b : Nat, a = b →
      q.buffer_data (a % q.buffer_size) = q.buffer_data (b % q.buffer_size) :=
    fun a b hab => by rw [hab]
  have hd : q.enqueue_pos - q.dequeue_pos =
      (q.enqueue_pos - (q.dequeue_pos + 1)) + 1 := by omega
  rw [hd, List.range_succ_eq_map, List.map_cons, List.map_map]
  refine congrArg₂ List.cons (hk _ _ (by omega)) ?_
  apply List.map_congr_left
  intro j hj
  simp only [Function.comp_apply]
  exact hk _ _ (by omega)

/-! ## The invariant holds in every reachable state -/

@[simp] theorem init_buffer_size (n : Nat) : (MPMCQueue.init n).buffer_size = n := rfl

@[simp] theorem init_buffer_seq (n : Nat) :
    (MPMCQueue.init n).buffer_seq = fun i => i := rfl

@[simp] theorem init_buffer_data (n : Nat) :
    (MPMCQueue.init n).buffer_data = fun _ => 0 := rfl

@[simp] theorem init_buffer_mask (n : Nat) :
    (MPMCQueue.init n).buffer_mask = n - 1 := rfl

@[simp] theorem init_enqueue_pos (n : Nat) : (MPMCQueue.init n).enqueue_pos = 0 := rfl

@[simp] theorem init_dequeue_pos (n : Nat) : (MPMCQueue.init n).dequeue_pos = 0 := rfl

/-- A freshly constructed queue satisfies the invariant. -/
theorem inv_init {n : Nat} (h2 : 2 ≤ n) (hand : n &&& (n - 1) = 0) :
    Inv (MPMCQueue.init n) := by
  obtain ⟨k, hk⟩ := pow2_of_and_pred n (by omega) hand
  have hk1 : 1 ≤ k := by
    by_contra hc
    have hk0 : k = 0 := by omega
    rw [hk0] at hk
    simp at hk
    omega
  constructor
  · exact ⟨k, hk1, hk⟩
  · rfl
  · exact Nat.zero_le _
  · exact Nat.zero_le _
  · intro p hdp hpe
    simp only [init_enqueue_pos] at hpe
    omega
  · intro i hi _
    simp only [init_buffer_size] at hi
    exact ⟨i, Nat.zero_le _, by simpa using hi, by simpa using Nat.mod_eq_of_lt hi, rfl⟩

/-- What a successful construction yields: the initial state of a valid
buffer size. -/
theorem inv_construct {n : Nat} {q : MPMCQueue}
    (h : MPMCQueue.construct n = some q) :
    Inv q ∧ q = MPMCQueue.init n ∧ 2 ≤ n ∧ n &&& (n - 1) = 0 := by
  unfold MPMCQueue.construct at h
  split_ifs at h with hc
  have hq : MPMCQueue.init n = q := Option.some.inj h
  exact ⟨hq ▸ inv_init hc.1 hc.2, hq.symm, hc.1, hc.2⟩

/-- One call preserves the invariant. -/
theorem step_inv {q q' : MPMCQueue} {op : Op} (h : Inv q)
    (hs : q.step op = some q') : Inv q' := by
  cases op with
  | enq v =>
    rcases Nat.lt_or_ge q.enqueue_pos (q.dequeue_pos + q.buffer_size) with hlt | hge
    · rw [MPMCQueue.step, enqueue_eq_of_not_full h v hlt, Option.map_some'] at hs
      exact (Option.some.inj hs) ▸ h.enqSucc_inv v hlt
    · have heq : q.enqueue_pos = q.dequeue_pos + q.buffer_size :=
        Nat.le_antisymm h.le_cap hge
      rw [MPMCQueue.step, enqueue_eq_of_full h v heq, Option.map_some'] at hs
      exact (Option.some.inj hs) ▸ h
  | deq =>
    rcases Nat.lt_or_ge q.dequeue_pos q.enqueue_pos with hlt | hge
    · rw [MPMCQueue.step, dequeue_eq_of_nonempty h 0 hlt, Option.map_some'] at hs
      exact (Option.some.inj hs) ▸ h.deqSucc_inv hlt
    · have heq : q.dequeue_pos = q.enqueue_pos := Nat.le_antisymm h.le_enq hge
      rw [MPMCQueue.step, dequeue_eq_of_empty h 0 heq, Option.map_some'] at hs
      exact (Option.some.inj hs) ▸ h

/-- Any run preserves the invariant. -/
theorem runFrom_inv : ∀ (ops : List Op) (q q' : MPMCQueue), Inv q →
    q.runFrom ops = some q' → Inv q' := by
  intro ops
  induction ops with
  | nil =>
    intro q q' h hr
    simp only [MPMCQueue.runFrom] at hr
    exact (Option.some.inj hr) ▸ h
  | cons op ops ih =>
    intro q q' h hr
    simp only [MPMCQueue.runFrom] at hr
    cases hstep : q.step op with
    | none =>
      rw [hstep] at hr
      exact Option.noConfusion hr
    | some qm =>
      rw [hstep] at hr
      exact ih qm q' (step_inv h hstep) hr

/-- Every reachable state satisfies the invariant. -/
theorem reachable_inv {q : MPMCQueue} (h : Reachable q) : Inv q := by
  obtain ⟨n, q0, ops, hc, hr⟩ := h
  exact runFrom_inv ops q0 q (inv_construct hc).1 hr

/-! ## Refinement: the queue simulates the abstract bounded FIFO -/

/-- Simulation: from any invariant state, the concrete trace of a call
sequence is exactly the abstract bounded-FIFO trace started from the
abstraction of that state. -/
theorem trace_sim : ∀ (ops : List Op) (q : MPMCQueue), Inv q →
    q.trace ops = some (absTrace q.buffer_size (absList q) ops) := by
  intro ops
  induction ops with
  | nil =>
    intro q h
    rfl
  | cons op ops ih =>
    intro q h
    have hle := h.le_enq
    have hcap := h.le_cap
    cases op with
    | enq v =>
      rcases Nat.lt_or_ge q.enqueue_pos (q.dequeue_pos + q.buffer_size) with hlt | hge
      · have he := enqueue_eq_of_not_full h v hlt
        have habs : absEnqueue q.buffer_size (absList q) v = (true, absList q ++ [v]) := by
          unfold absEnqueue
          rw [if_pos (by rw [absList_length]; omega)]
        have hrec := ih (q.enqSucc v) (h.enqSucc_inv v hlt)
        rw [enqSucc_buffer_size, absList_enqSucc h v hlt] at hrec
        simp only [MPMCQueue.trace, he, absTrace, habs, hrec]
      · have heq : q.enqueue_pos = q.dequeue_pos + q.buffer_size :=
          Nat.le_antisymm h.le_cap hge
        have he := enqueue_eq_of_full h v heq
        have habs : absEnqueue q.buffer_size (absList q) v = (false, absList q) := by
          unfold absEnqueue
          rw [if_neg (by rw [absList_length]; omega)]
        have hrec := ih q h
        simp only [MPMCQueue.trace, he, absTrace, habs, hrec]
    | deq =>
      rcases Nat.lt_or_ge q.dequeue_pos q.enqueue_pos with hlt | hge
      · have hd := dequeue_eq_of_nonempty h 0 hlt
        have hcons := absList_cons h hlt
        have habs : absDequeue (absList q) 0 =
            (true, q.buffer_data (q.dequeue_pos % q.buffer_size), absList q.deqSucc) := by
          rw [hcons]
          rfl
        have hrec := ih q.deqSucc (h.deqSucc_inv hlt)
        rw [deqSucc_buffer_size] at hrec
        simp only [MPMCQueue.trace, hd, absTrace, habs, hrec]
      · have heq : q.dequeue_pos = q.enqueue_pos := Nat.le_antisymm h.le_enq hge
        have hnil : absList q = [] := by
          have := absList_length q
          cases hq : absList q with
          | nil => rfl
          | cons x xs =>
            rw [hq] at this
            simp at this
            omega
        have hd := dequeue_eq_of_empty h 0 heq
        have habs : absDequeue (absList q) 0 = (false, 0, absList q) := by
          rw [hnil]
          rfl
        have hrec := ih q h
        simp only [MPMCQueue.trace, hd, absTrace, habs, hrec]

/-- Filling the abstract FIFO: from a list with `j` free places, `j` enqueues
succeed and the next one reports full. -/
theorem absTrace_replicate_enq : ∀ (j cap : Nat) (l : List Nat) (v : Nat),
    l.length + j = cap →
    absTrace cap l (List.replicate (j + 1) (Op.enq v)) =
      List.replicate j (OpResult.enqR true) ++ [OpResult.enqR false] := by
  intro j
  induction j with
  | zero =>
    intro cap l v hl
    rw [List.replicate_succ, List.replicate_zero]
    simp only [absTrace]
    have habs : absEnqueue cap l v = (false, l) := by
      unfold absEnqueue
      rw [if_neg (by omega)]
    rw [habs]
    rfl
  | succ j ih =>
    intro cap l v hl
    rw [List.replicate_succ, List.replicate_succ (n := j)]
    simp only [absTrace, List.cons_append]
    have habs : absEnqueue cap l v = (true, l ++ [v]) := by
      unfold absEnqueue
      rw [if_pos (by omega)]
    rw [habs]
    exact congrArg _ (ih cap (l ++ [v]) v (by simp; omega))

/-- A fresh queue abstracts to the empty list. -/
theorem absList_init (n : Nat) : absList (MPMCQueue.init n) = [] := by
  simp [absList]

/-- The concrete trace from a successful construction equals the abstract
bounded-FIFO trace from the empty list. -/
theorem trace_from_construct {n : Nat} {q0 : MPMCQueue}
    (h : MPMCQueue.construct n = some q0) (ops : List Op) :
    q0.trace ops = some (absTrace n [] ops) := by
  obtain ⟨hinv, hq, h2, hand⟩ := inv_construct h
  subst hq
  have hs := trace_sim ops (MPMCQueue.init n) hinv
  rw [init_buffer_size, absList_init] at hs
  exact hs

/-- The concrete queue of capacity 2 is reachable (by constructing it). -/
theorem reachable_init_two : Reachable (MPMCQueue.init 2) :=
  ⟨2, MPMCQueue.init 2, [], rfl, rfl⟩

/-! ## The claims -/

/-- Claim C1: for every sequence of tryEnqueue/tryDequeue calls executed
sequentially on a queue constructed with a valid capacity, the queue behaves
exactly like an abstract bounded FIFO queue of that capacity: each successful
tryDequeue returns the oldest value enqueued and not yet dequeued, and each
successful tryEnqueue appends its value as the newest. -/
theorem c1_refines_bounded_fifo (n : Nat) (q0 : MPMCQueue) (ops : List Op)
    (h : MPMCQueue.construct n = some q0) :
    q0.trace ops = some (absTrace n [] ops) :=
  trace_from_construct h ops

theorem c1_refines_bounded_fifo_witness :
    MPMCQueue.construct 2 = some (MPMCQueue.init 2) ∧
    (MPMCQueue.init 2).trace [Op.enq 5, Op.enq 6, Op.deq] =
      some (absTrace 2 [] [Op.enq 5, Op.enq 6, Op.deq]) :=
  ⟨rfl, c1_refines_bounded_fifo 2 (MPMCQueue.init 2) [Op.enq 5, Op.enq 6, Op.deq] rfl⟩

/-- Claim C3: in every reachable state the number of resident values
(`enqueue_pos - dequeue_pos`) never exceeds the capacity, and from a fresh
queue of capacity `n`, `n` consecutive tryEnqueue calls succeed and the
`(n+1)`-th returns `false`. -/
theorem c3_capacity_bound :
    (∀ q : MPMCQueue, Reachable q →
      q.enqueue_pos - q.dequeue_pos ≤ q.buffer_size) ∧
    (∀ (n v : Nat) (q0 : MPMCQueue), MPMCQueue.construct n = some q0 →
      q0.trace (List.replicate (n + 1) (Op.enq v)) =
        some (List.replicate n (OpResult.enqR true) ++ [OpResult.enqR false])) := by
  constructor
  · intro q h
    have hinv := reachable_inv h
    have := hinv.le_cap
    omega
  · intro n v q0 hc
    rw [trace_from_construct hc]
    rw [absTrace_replicate_enq n n [] v (by simp)]

theorem c3_capacity_bound_witness :
    ((MPMCQueue.init 2).enqueue_pos - (MPMCQueue.init 2).dequeue_pos ≤
      (MPMCQueue.init 2).buffer_size) ∧
    (MPMCQueue.init 2).trace (List.replicate 3 (Op.enq 5)) =
      some (List.replicate 2 (OpResult.enqR true) ++ [OpResult.enqR false]) :=
  ⟨c3_capacity_bound.1 (MPMCQueue.init 2) reachable_init_two,
    c3_capacity_bound.2 2 5 (MPMCQueue.init 2) rfl⟩

/-- Claim C4: a failed operation has no effect: a tryEnqueue that observes the
queue full returns `false` with the queue state unchanged, and a tryDequeue
that observes the queue empty returns the empty result with the state and
output parameter unchanged, so an immediately repeated tryDequeue gives the
same empty result. -/
theorem c4_failed_ops_no_effect :
    (∀ (q : MPMCQueue) (v : Nat) (q' : MPMCQueue),
      q.enqueue v = some (false, q') → q' = q) ∧
    (∀ (q : MPMCQueue) (d0 out : Nat) (q' : MPMCQueue),
      q.dequeue d0 = some (false, out, q') →
        q' = q ∧ out = d0 ∧ q'.dequeue d0 = q.dequeue d0) := by
  constructor
  · intro q v q' he
    rw [enqueue_eq] at he
    split_ifs at he with h1 h2
    · exact absurd he (by simp)
    · simp only [Option.some.injEq, Prod.mk.injEq] at he
      exact he.2.symm
  · intro q d0 out q' hd
    rw [dequeue_eq] at hd
    split_ifs at hd with h1 h2
    · exact absurd hd (by simp)
    · simp only [Option.some.injEq, Prod.mk.injEq] at hd
      refine ⟨hd.2.2.symm, hd.2.1.symm, ?_⟩
      rw [hd.2.2.symm]

theorem c4_failed_ops_no_effect_witness :
    (MPMCQueue.init 2).dequeue 7 = some (false, 7, MPMCQueue.init 2) ∧
    (MPMCQueue.init 2 = MPMCQueue.init 2 ∧ (7 : Nat) = 7 ∧
      (MPMCQueue.init 2).dequeue 7 = (MPMCQueue.init 2).dequeue 7) :=
  ⟨rfl, c4_failed_ops_no_effect.2 (MPMCQueue.init 2) 7 7 (MPMCQueue.init 2) rfl⟩

/-- Claim C5: construction accepts a capacity exactly when it is a power of
two and at least 2 — every other capacity is rejected by the assertion; in
particular 3, 0 and 1 are rejected and 2 and 65536 succeed; and the capacity
is never silently coerced to a different value. -/
theorem c5_construction_validation :
    (∀ n : Nat, (∃ q, MPMCQueue.construct n = some q) ↔ (2 ≤ n ∧ ∃ k, n = 2 ^ k)) ∧
    MPMCQueue.construct 3 = none ∧ MPMCQueue.construct 0 = none ∧
    MPMCQueue.construct 1 = none ∧
    (MPMCQueue.construct 2).isSome = true ∧
    (MPMCQueue.construct 65536).isSome = true ∧
    (∀ (n : Nat) (q : MPMCQueue), MPMCQueue.construct n = some q →
      q.buffer_size = n ∧ q.buffer_mask = n - 1) := by
  refine ⟨?_, rfl, rfl, rfl, rfl, rfl, ?_⟩
  · intro n
    constructor
    · rintro ⟨q, hq⟩
      obtain ⟨-, -, h2, hand⟩ := inv_construct hq
      exact ⟨h2, pow2_of_and_pred n (by omega) hand⟩
    · rintro ⟨h2, k, hk⟩
      have hand : n &&& (n - 1) = 0 := by
        rw [hk, Nat.and_pow_two_sub_one_eq_mod, Nat.mod_self]
      refine ⟨MPMCQueue.init n, ?_⟩
      unfold MPMCQueue.construct
      rw [if_pos ⟨h2, hand⟩]
  · intro n q hc
    obtain ⟨-, hq, -, -⟩ := inv_construct hc
    subst hq
    exact ⟨rfl, rfl⟩

theorem c5_construction_validation_witness :
    (∃ q, MPMCQueue.construct 2 = some q) ∧
    (MPMCQueue.init 2).buffer_size = 2 ∧ (MPMCQueue.init 2).buffer_mask = 1 :=
  ⟨(c5_construction_validation.1 2).mpr ⟨by omega, 1, rfl⟩,
    c5_construction_validation.2.2.2.2.2.2 2 (MPMCQueue.init 2) rfl⟩

/-- Claim C6: a freshly constructed queue starts empty: every slot `i < n` has
sequence `i`, both position counters are `0`, and the first tryDequeue
returns the empty result. -/
theorem c6_fresh_queue_empty (n : Nat) (q : MPMCQueue)
    (h : MPMCQueue.construct n = some q) :
    q.enqueue_pos = 0 ∧ q.dequeue_pos = 0 ∧
    (∀ i, i < n → q.buffer_seq i = i) ∧
    (∀ d0, q.dequeue d0 = some (false, d0, q)) := by
  obtain ⟨hinv, hq, h2, -⟩ := inv_construct h
  subst hq
  exact ⟨rfl, rfl, fun i _ => rfl, fun d0 => dequeue_eq_of_empty hinv d0 rfl⟩

theorem c6_fresh_queue_empty_witness :
    (MPMCQueue.init 2).enqueue_pos = 0 ∧ (MPMCQueue.init 2).dequeue_pos = 0 ∧
    (∀ i, i < 2 → (MPMCQueue.init 2).buffer_seq i = i) ∧
    (∀ d0, (MPMCQueue.init 2).dequeue d0 = some (false, d0, MPMCQueue.init 2)) :=
  c6_fresh_queue_empty 2 (MPMCQueue.init 2) rfl

/-- Claim C7: under sequential execution, every tryEnqueue and tryDequeue call
on a reachable state terminates with success or the full/empty result (the
`dif > 0` spin branch — modelled as `none` — is never taken). -/
theorem c7_sequential_termination (q : MPMCQueue) (h : Reachable q)
    (v d0 : Nat) : q.enqueue v ≠ none ∧ q.dequeue d0 ≠ none := by
  have hinv := reachable_inv h
  constructor
  · rcases Nat.lt_or_ge q.enqueue_pos (q.dequeue_pos + q.buffer_size) with hlt | hge
    · rw [enqueue_eq_of_not_full hinv v hlt]
      simp
    · rw [enqueue_eq_of_full hinv v (Nat.le_antisymm hinv.le_cap hge)]
      simp
  · rcases Nat.lt_or_ge q.dequeue_pos q.enqueue_pos with hlt | hge
    · rw [dequeue_eq_of_nonempty hinv d0 hlt]
      simp
    · rw [dequeue_eq_of_empty hinv d0 (Nat.le_antisymm hinv.le_enq hge)]
      simp

theorem c7_sequential_termination_witness :
    (MPMCQueue.init 2).enqueue 5 ≠ none ∧ (MPMCQueue.init 2).dequeue 0 ≠ none :=
  c7_sequential_termination (MPMCQueue.init 2) reachable_init_two 5 0

/-- Claim C9: when tryDequeue fails (returns `false`), the caller's
by-reference output argument is left unchanged. -/
theorem c9_failed_dequeue_output_unchanged (q : MPMCQueue) (d0 out : Nat)
    (q' : MPMCQueue) (h : q.dequeue d0 = some (false, out, q')) : out = d0 := by
  rw [dequeue_eq] at h
  split_ifs at h with h1 h2
  · exact absurd h (by simp)
  · simp only [Option.some.injEq, Prod.mk.injEq] at h
    exact h.2.1.symm

theorem c9_failed_dequeue_output_unchanged_witness : (7 : Nat) = 7 :=
  c9_failed_dequeue_output_unchanged (MPMCQueue.init 2) 7 7 (MPMCQueue.init 2) rfl

/-- Claim C10: in every reachable state
`dequeue_pos ≤ enqueue_pos ≤ dequeue_pos + capacity`, and each operation
leaves both position counters non-decreasing. -/
theorem c10_counter_bounds_and_monotonicity :
    (∀ q : MPMCQueue, Reachable q →
      q.dequeue_pos ≤ q.enqueue_pos ∧
      q.enqueue_pos ≤ q.dequeue_pos + q.buffer_size) ∧
    (∀ (q : MPMCQueue) (op : Op) (q' : MPMCQueue), q.step op = some q' →
      q.dequeue_pos ≤ q'.dequeue_pos ∧ q.enqueue_pos ≤ q'.enqueue_pos) := by
  constructor
  · intro q h
    have hinv := reachable_inv h
    exact ⟨hinv.le_enq, hinv.le_cap⟩
  · intro q op q' hs
    cases op with
    | enq v =>
      simp only [MPMCQueue.step] at hs
      rw [enqueue_eq] at hs
      split_ifs at hs with h1 h2
      · simp only [Option.map_some'] at hs
        cases Option.some.inj hs
        exact ⟨Nat.le_refl _, Nat.le_succ _⟩
      · simp only [Option.map_some'] at hs
        cases Option.some.inj hs
        exact ⟨Nat.le_refl _, Nat.le_refl _⟩
      · exact Option.noConfusion hs
    | deq =>
      simp only [MPMCQueue.step] at hs
      rw [dequeue_eq] at hs
      split_ifs at hs with h1 h2
      · simp only [Option.map_some'] at hs
        cases Option.some.inj hs
        exact ⟨Nat.le_succ _, Nat.le_refl _⟩
      · simp only [Option.map_some'] at hs
        cases Option.some.inj hs
        exact ⟨Nat.le_refl _, Nat.le_refl _⟩
      · exact Option.noConfusion hs

theorem c10_counter_bounds_and_monotonicity_witness :
    ((MPMCQueue.init 2).dequeue_pos ≤ (MPMCQueue.init 2).enqueue_pos ∧
      (MPMCQueue.init 2).enqueue_pos ≤
        (MPMCQueue.init 2).dequeue_pos + (MPMCQueue.init 2).buffer_size) ∧
    ((MPMCQueue.init 2).dequeue_pos ≤ ((MPMCQueue.init 2).enqSucc 5).dequeue_pos ∧
      (MPMCQueue.init 2).enqueue_pos ≤ ((MPMCQueue.init 2).enqSucc 5).enqueue_pos) :=
  ⟨c10_counter_bounds_and_monotonicity.1 (MPMCQueue.init 2) reachable_init_two,
    c10_counter_bounds_and_monotonicity.2 (MPMCQueue.init 2) (Op.enq 5)
      ((MPMCQueue.init 2).enqSucc 5) rfl⟩

/-- Claim C2: in every reachable state each slot at ring index `i` obeys the
slot-readiness invariant: its sequence is either `p + 1` for the unique
resident position `p` mapping to it (read-ready) or `p` for the unique
upcoming position `p` mapping to it (write-ready); a tryEnqueue at position
`pos = enqueue_pos` succeeds exactly when the slot's sequence is `pos` and a
successful one stores `sequence = pos + 1`; a tryDequeue at
`pos = dequeue_pos` succeeds exactly when the slot's sequence is `pos + 1`
and a successful one stores `sequence = pos + mask + 1`, i.e. advances the
slot by one full lap. -/
theorem c2_slot_readiness (q : MPMCQueue) (h : Reachable q) (v d0 : Nat) :
    (∀ i, i < q.buffer_size →
      (∃ p, q.dequeue_pos ≤ p ∧ p < q.enqueue_pos ∧ p % q.buffer_size = i ∧
        q.buffer_seq i = p + 1) ∨
      (∃ p, q.enqueue_pos ≤ p ∧ p < q.enqueue_pos + q.buffer_size ∧
        p % q.buffer_size = i ∧ q.buffer_seq i = p)) ∧
    ((∃ q', q.enqueue v = some (true, q')) ↔
      q.buffer_seq (q.enqueue_pos % q.buffer_size) = q.enqueue_pos) ∧
    (∀ q', q.enqueue v = some (true, q') →
      q'.buffer_seq (q.enqueue_pos % q.buffer_size) = q.enqueue_pos + 1) ∧
    ((∃ out q', q.dequeue d0 = some (true, out, q')) ↔
      q.buffer_seq (q.dequeue_pos % q.buffer_size) = q.dequeue_pos + 1) ∧
    (∀ out q', q.dequeue d0 = some (true, out, q') →
      q'.buffer_seq (q.dequeue_pos % q.buffer_size) =
        q.dequeue_pos + q.buffer_mask + 1) := by
  have hinv := reachable_inv h
  have hle := hinv.le_enq
  have hcap := hinv.le_cap
  have h2 := hinv.two_le
  refine ⟨?_, ⟨?_, ?_⟩, ?_, ⟨?_, ?_⟩, ?_⟩
  · intro i hi
    by_cases hres : ∃ p, q.dequeue_pos ≤ p ∧ p < q.enqueue_pos ∧
        p % q.buffer_size = i
    · obtain ⟨p, hp1, hp2, hp3⟩ := hres
      exact Or.inl ⟨p, hp1, hp2, hp3, by rw [← hp3]; exact hinv.resident p hp1 hp2⟩
    · push_neg at hres
      exact Or.inr (hinv.freeSlot i hi hres)
  · rintro ⟨q', hq'⟩
    rcases Nat.lt_or_ge q.enqueue_pos (q.dequeue_pos + q.buffer_size) with hlt | hge
    · exact seq_at_enq hinv hlt
    · rw [enqueue_eq_of_full hinv v (Nat.le_antisymm hcap hge)] at hq'
      simp at hq'
  · intro hseq
    rcases Nat.lt_or_ge q.enqueue_pos (q.dequeue_pos + q.buffer_size) with hlt | hge
    · exact ⟨_, enqueue_eq_of_not_full hinv v hlt⟩
    · have heq := Nat.le_antisymm hcap hge
      have := seq_at_enq_full hinv heq
      omega
  · intro q' hq'
    rcases Nat.lt_or_ge q.enqueue_pos (q.dequeue_pos + q.buffer_size) with hlt | hge
    · rw [enqueue_eq_of_not_full hinv v hlt] at hq'
      simp only [Option.some.injEq, Prod.mk.injEq, true_and] at hq'
      rw [← hq', enqSucc_buffer_seq, upd_self]
    · rw [enqueue_eq_of_full hinv v (Nat.le_antisymm hcap hge)] at hq'
      simp at hq'
  · rintro ⟨out, q', hq'⟩
    rcases Nat.lt_or_ge q.dequeue_pos q.enqueue_pos with hlt | hge
    · exact seq_at_deq hinv hlt
    · rw [dequeue_eq_of_empty hinv d0 (Nat.le_antisymm hle hge)] at hq'
      simp at hq'
  · intro hseq
    rcases Nat.lt_or_ge q.dequeue_pos q.enqueue_pos with hlt | hge
    · exact ⟨_, _, dequeue_eq_of_nonempty hinv d0 hlt⟩
    · have heq := Nat.le_antisymm hle hge
      have := seq_at_deq_empty hinv heq
      omega
  · intro out q' hq'
    rcases Nat.lt_or_ge q.dequeue_pos q.enqueue_pos with hlt | hge
    · rw [dequeue_eq_of_nonempty hinv d0 hlt] at hq'
      simp only [Option.some.injEq, Prod.mk.injEq, true_and] at hq'
      rw [← hq'.2, deqSucc_buffer_seq, upd_self]
    · rw [dequeue_eq_of_empty hinv d0 (Nat.le_antisymm hle hge)] at hq'
      simp at hq'

theorem c2_slot_readiness_witness :
    (∀ i, i < (MPMCQueue.init 2).buffer_size →
      (∃ p, (MPMCQueue.init 2).dequeue_pos ≤ p ∧
        p < (MPMCQueue.init 2).enqueue_pos ∧
        p % (MPMCQueue.init 2).buffer_size = i ∧
        (MPMCQueue.init 2).buffer_seq i = p + 1) ∨
      (∃ p, (MPMCQueue.init 2).enqueue_pos ≤ p ∧
        p < (MPMCQueue.init 2).enqueue_pos + (MPMCQueue.init 2).buffer_size ∧
        p % (MPMCQueue.init 2).buffer_size = i ∧
        (MPMCQueue.init 2).buffer_seq i = p)) ∧
    ((∃ q', (MPMCQueue.init 2).enqueue 5 = some (true, q')) ↔
      (MPMCQueue.init 2).buffer_seq
        ((MPMCQueue.init 2).enqueue_pos % (MPMCQueue.init 2).buffer_size) =
        (MPMCQueue.init 2).enqueue_pos) ∧
    (∀ q', (MPMCQueue.init 2).enqueue 5 = some (true, q') →
      q'.buffer_seq
        ((MPMCQueue.init 2).enqueue_pos % (MPMCQueue.init 2).buffer_size) =
        (MPMCQueue.init 2).enqueue_pos + 1) ∧
    ((∃ out q', (MPMCQueue.init 2).dequeue 0 = some (true, out, q')) ↔
      (MPMCQueue.init 2).buffer_seq
        ((MPMCQueue.init 2).dequeue_pos % (MPMCQueue.init 2).buffer_size) =
        (MPMCQueue.init 2).dequeue_pos + 1) ∧
    (∀ out q', (MPMCQueue.init 2).dequeue 0 = some (true, out, q') →
      q'.buffer_seq
        ((MPMCQueue.init 2).dequeue_pos % (MPMCQueue.init 2).buffer_size) =
        (MPMCQueue.init 2).dequeue_pos + (MPMCQueue.init 2).buffer_mask + 1) :=
  c2_slot_readiness (MPMCQueue.init 2) reachable_init_two 5 0

end MPMC
